import Mathlib

/-!
Verification development for the scroll coordination core.

This file gives a shallow embedding, in Lean 4, of the two Go source files of
the repository:

* `common/types/message/message.go` — the proof-submission message protocol
  (`ProofMsg.Sign` / `ProofMsg.Verify` / `ProofMsg.PublicKey`,
  `ProofDetail.Hash` via RLP + Keccak-256, `BatchProof.SanityCheck`);
* the layer-2 batch proposer (`WatcherClient.tryProposeBatch` and
  `WatcherClient.createBatchForBlocks`).

Modelling conventions:

* Go byte slices and Go strings are `List Nat` (byte / character codes);
  machine integers are `Nat` with an explicit `% 2 ^ 64` wherever the Go
  code performs `uint64` arithmetic that may wrap.
* The secp256k1 primitives of the external go-ethereum library
  (`crypto.Sign`, `crypto.SigToPub`, `crypto.CompressPubkey`,
  `crypto.VerifySignature`) and the Keccak-256 sponge are not code of this
  repository; the embedding is parametric in them (`CryptoModel`), and the
  theorems carry the standard ECDSA correctness facts as hypotheses.  A small
  concrete instance (`toyCrypto`) satisfying those facts is used for closed
  witnesses.
* The RLP serialization applied by `ProofDetail.Hash` is embedded concretely
  (`Item`, `encodeItem`) following the go-ethereum encoding rules for the
  field types that occur in the hashed structure, and is proved injective.
* Go error values are modelled as `Nat` codes (the concrete message texts are
  recorded in comments); `error = nil` is `Except.ok` / `none`.
-/

namespace Scroll

/-- Go byte slices and strings: lists of byte values. -/
abbrev Bytes := List Nat

/-- Wrap-around modulus of Go `uint64` arithmetic. -/
def U64 : Nat := 2 ^ 64

/-! ## Hex encoding and decoding

Embeds `hexutil.Encode` (lowercase hex with a `0x` prefix), `common.Bytes2Hex`
(lowercase hex, no prefix) and `common.FromHex` (strips an optional `0x`/`0X`
prefix, left-pads odd input with `0`, then decodes greedily: Go's
`hex.DecodeString` returns the bytes decoded before the first invalid digit
and `common.Hex2Bytes` discards the error). -/

/-- Lowercase hex digit for a value below 16 (`48` is the code of `0`,
`97` of `a`). -/
def hexChar (v : Nat) : Nat := if v < 10 then 48 + v else 87 + v

/-- Hex character codes for one byte, high digit first. -/
def byteToHex (b : Nat) : List Nat := [hexChar (b / 16), hexChar (b % 16)]

/-- Hex character codes of a byte slice. -/
def bytesToHexChars : Bytes → List Nat
  | [] => []
  | b :: rest => hexChar (b / 16) :: hexChar (b % 16) :: bytesToHexChars rest

/-- Embeds `hexutil.Encode`: `0x` (codes 48, 120) followed by lowercase hex. -/
def hexutilEncode (bs : Bytes) : List Nat := 48 :: 120 :: bytesToHexChars bs

/-- Embeds `common.Bytes2Hex`: lowercase hex without a prefix. -/
def bytes2Hex (bs : Bytes) : List Nat := bytesToHexChars bs

/-- Value of one hex character (digits, lowercase and uppercase letters),
`none` for an invalid character. -/
def fromHexChar (c : Nat) : Option Nat :=
  if 48 ≤ c ∧ c ≤ 57 then some (c - 48)
  else if 97 ≤ c ∧ c ≤ 102 then some (c - 87)
  else if 65 ≤ c ∧ c ≤ 70 then some (c - 55)
  else none

/-- Greedy pairwise hex decoding: stops (discarding the rest) at the first
invalid digit or at a trailing lone character, as Go's `hex.Decode` does when
its error is ignored. -/
def hexDecodeGreedy : List Nat → Bytes
  | a :: b :: rest =>
    match fromHexChar a, fromHexChar b with
    | some x, some y => (16 * x + y) :: hexDecodeGreedy rest
    | _, _ => []
  | _ => []

/-- Strips a leading `0x` or `0X` (codes 48/120/88), as `has0xPrefix` does. -/
def strip0x (s : List Nat) : List Nat :=
  if s.take 2 = [48, 120] ∨ s.take 2 = [48, 88] then s.drop 2 else s

/-- Left-pads odd-length hex input with a `0` character, as `common.FromHex`
does. -/
def padOdd (s : List Nat) : List Nat :=
  if s.length % 2 = 1 then 48 :: s else s

/-- Embeds `common.FromHex`. -/
def fromHex (s : List Nat) : Bytes :=
  hexDecodeGreedy (padOdd (strip0x s))

/-! ## RLP serialization

`ProofDetail.Hash` serializes the struct with `rlp.EncodeToBytes` before
hashing.  The go-ethereum RLP rules used by the hashed structure: a byte
slice, string or byte array encodes as an RLP string of its bytes; an
unsigned integer as the RLP string of its minimal big-endian bytes; a bool as
`0x01` / the empty string; a struct as the RLP list of its fields in
declaration order; a slice of structs as the RLP list of the elements; a nil
pointer to a struct as the empty RLP list. -/

mutual

/-- RLP item tree: a byte string or a list of items (mutual with `ItemList`
so that structural recursion and induction stay simple). -/
inductive Item where
  | str : List Nat → Item
  | list : ItemList → Item

/-- Lists of RLP items. -/
inductive ItemList where
  | nil : ItemList
  | cons : Item → ItemList → ItemList

end

/-- Fuel-driven helper for `natBE` (structural recursion on the fuel keeps
the function kernel-reducible; the fuel never runs out when it starts at the
number itself). -/
def natBEFuel : Nat → Nat → List Nat
  | 0, _ => []
  | _ + 1, 0 => []
  | fuel + 1, n + 1 => natBEFuel fuel ((n + 1) / 256) ++ [(n + 1) % 256]

/-- Minimal big-endian bytes of a natural number (empty for zero), as
go-ethereum's `putint` produces for unsigned integers and length headers. -/
def natBE (n : Nat) : List Nat := natBEFuel n n

/-- RLP encoding of a byte string: a single byte below `0x80` is its own
encoding; otherwise a `0x80 + length` header (below 56 bytes) or a
`0xb7 + lengthOfLength` header followed by the big-endian length. -/
def encStr (bs : List Nat) : List Nat :=
  if bs.length = 1 ∧ bs.headD 0 < 128 then bs
  else if bs.length < 56 then (128 + bs.length) :: bs
  else (183 + (natBE bs.length).length) :: (natBE bs.length ++ bs)

mutual

/-- RLP encoding of an item (strings as in `encStr`, lists with a
`0xc0 + length` or `0xf7 + lengthOfLength` header over the concatenated
payload). -/
def encodeItem : Item → List Nat
  | .str bs => encStr bs
  | .list l =>
    if (encodeList l).length < 56 then (192 + (encodeList l).length) :: encodeList l
    else (247 + (natBE (encodeList l).length).length) ::
      (natBE (encodeList l).length ++ encodeList l)

/-- Concatenated RLP encodings of a list of items (an RLP list payload). -/
def encodeList : ItemList → List Nat
  | .nil => []
  | .cons i l => encodeItem i ++ encodeList l

end

mutual

/-- Well-formedness used by the injectivity proof: every string item is
shorter than `2 ^ 64` bytes (in Go, lengths are `int` values and RLP headers
assume they fit in eight bytes). -/
def itemWF : Item → Bool
  | .str bs => decide (bs.length < 2 ^ 64)
  | .list l => listWF l

/-- Well-formedness of item lists. -/
def listWF : ItemList → Bool
  | .nil => true
  | .cons i l => itemWF i && listWF l

end

/-! ## Message data model

Embeds the structures of `common/types/message/message.go`.  Go's exported
field names are kept up to capitalization (Go `ID`/`Type`/`Status`/... become
`id`/`type'`/`status`/...; `Type` itself is not a legal Lean field name).
`uint8`/`uint32`/`uint64` fields are `Nat` (their RLP encoding depends only
on the numeric value), Go strings and byte slices are `List Nat`, and
`common.Hash` (a 32-byte array) is a `List Nat` of its bytes. -/

/-- Embeds `ChunkInfo`: chain id, state roots, withdraw root, data hash,
padding flag and raw transaction bytes. -/
structure ChunkInfo where
  chainID : Nat
  prevStateRoot : List Nat
  postStateRoot : List Nat
  withdrawRoot : List Nat
  dataHash : List Nat
  isPadding : Bool
  txBytes : List Nat
deriving DecidableEq

/-- Embeds `SubCircuitRowUsage`: a named row-usage counter. -/
structure SubCircuitRowUsage where
  name : List Nat
  rowNumber : Nat
deriving DecidableEq

/-- Embeds `ChunkProof`: the black-box proof blobs, the optional `ChunkInfo`
cross-reference (a nil-able pointer in Go), a version tag and row usages. -/
structure ChunkProof where
  storageTrace : List Nat
  protocol : List Nat
  proof : List Nat
  instances : List Nat
  vk : List Nat
  chunkInfo : Option ChunkInfo
  gitVersion : List Nat
  rowUsages : List SubCircuitRowUsage
deriving DecidableEq

/-- Embeds `BatchProof`: aggregated proof blobs and a version tag. -/
structure BatchProof where
  proof : List Nat
  instances : List Nat
  vk : List Nat
  gitVersion : List Nat
deriving DecidableEq

/-- Embeds `ProofDetail`: task id, proof type (`uint8`), response status
(`uint32`), the two nil-able proof variants, and an error string.  This is
the structure that `Hash` serializes and that `Sign` signs. -/
structure ProofDetail where
  id : List Nat
  type' : Nat
  status : Nat
  chunkProof : Option ChunkProof
  batchProof : Option BatchProof
  error : List Nat
deriving DecidableEq

/-- RLP item of an unsigned integer: the string of its minimal big-endian
bytes. -/
def rlpUint (n : Nat) : Item := .str (natBE n)

/-- RLP item of a Go bool: `0x01` for true, the empty string for false. -/
def rlpBool (b : Bool) : Item := .str (if b then [1] else [])

/-- Builds an `ItemList` from a Lean list of items. -/
def il : List Item → ItemList
  | [] => .nil
  | i :: rest => .cons i (il rest)

/-- RLP item of a nil-able pointer to a struct: the empty RLP list when nil,
the struct's item otherwise. -/
def optStructItem {α : Type} (f : α → Item) : Option α → Item
  | none => .list .nil
  | some x => f x

/-- RLP item of a `ChunkInfo` (struct: list of its fields in order). -/
def ChunkInfo.rlpItem (c : ChunkInfo) : Item :=
  .list (il [rlpUint c.chainID, .str c.prevStateRoot, .str c.postStateRoot,
    .str c.withdrawRoot, .str c.dataHash, rlpBool c.isPadding, .str c.txBytes])

/-- RLP item of a `SubCircuitRowUsage`. -/
def SubCircuitRowUsage.rlpItem (u : SubCircuitRowUsage) : Item :=
  .list (il [.str u.name, rlpUint u.rowNumber])

/-- RLP item of a `ChunkProof`; a nil `ChunkInfo` pointer encodes as the
empty RLP list. -/
def ChunkProof.rlpItem (p : ChunkProof) : Item :=
  .list (il [.str p.storageTrace, .str p.protocol, .str p.proof,
    .str p.instances, .str p.vk,
    optStructItem ChunkInfo.rlpItem p.chunkInfo,
    .str p.gitVersion,
    .list (il (p.rowUsages.map SubCircuitRowUsage.rlpItem))])

/-- RLP item of a `BatchProof`. -/
def BatchProof.rlpItem (p : BatchProof) : Item :=
  .list (il [.str p.proof, .str p.instances, .str p.vk, .str p.gitVersion])

/-- RLP item of a `ProofDetail`; the nil-able proof variants encode as empty
RLP lists when absent. -/
def ProofDetail.rlpItem (z : ProofDetail) : Item :=
  .list (il [.str z.id, rlpUint z.type', rlpUint z.status,
    optStructItem ChunkProof.rlpItem z.chunkProof,
    optStructItem BatchProof.rlpItem z.batchProof,
    .str z.error])

/-- The `rlp.EncodeToBytes` serialization of a `ProofDetail`. -/
def ProofDetail.rlpEncode (z : ProofDetail) : Bytes := encodeItem z.rlpItem

/-- Embeds `ProofDetail.Hash`, parametric in the Keccak-256 sponge: RLP
serialization followed by hashing.  (`rlp.EncodeToBytes` cannot fail on this
struct shape, so the Go `error` result is always nil here.) -/
def ProofDetail.Hash (keccak : Bytes → Bytes) (z : ProofDetail) : Bytes :=
  keccak z.rlpEncode

/-- Well-formedness of a `ProofDetail` for the injectivity theorem: every
byte-string field is shorter than `2 ^ 64` bytes. -/
def ProofDetail.WF (z : ProofDetail) : Bool := itemWF z.rlpItem

/-! ## Proof message protocol

Embeds `ProofMsg` and its `Sign` / `Verify` / `PublicKey` methods.  The
secp256k1 primitives are parameters (`CryptoModel`); the control flow,
hex-encoding plumbing and the public-key cache semantics are the code's. -/

/-- The external cryptographic primitives used by `message.go`:
`ProofDetail.Hash` (kept abstract here so its error path is represented),
`crypto.Sign`, `crypto.SigToPub`, `crypto.CompressPubkey` and
`crypto.VerifySignature`.  Public keys are abstract values (`Nat`); byte
representations come from `compressPubkey`.  Error codes are `Nat`. -/
structure CryptoModel where
  hashPD : ProofDetail → Except Nat Bytes
  ecSign : Bytes → Nat → Except Nat Bytes
  sigToPub : Bytes → Bytes → Except Nat Nat
  compressPubkey : Nat → Bytes
  verifySignature : Bytes → Bytes → Bytes → Bool

/-- Embeds `ProofMsg`: the embedded `ProofDetail`, the hex signature string,
and the unexported lazily-filled `publicKey` cache (empty list is Go's empty
string). -/
structure ProofMsg where
  detail : ProofDetail
  signature : List Nat
  publicKey : List Nat
deriving DecidableEq

/-- Result of `ProofMsg.Verify`: the `(bool, error)` pair of the Go method,
plus the runtime abort that Go raises on a slice-bounds violation
(`sig[:len(sig)-1]` with an empty `sig`). -/
inductive VerifyOutcome where
  | ok : Bool → VerifyOutcome
  | err : Nat → VerifyOutcome
  | crash : VerifyOutcome
deriving DecidableEq

/-- Embeds `ProofMsg.Sign`: hash the detail, sign the hash, store the
signature hex-encoded (`hexutil.Encode`). -/
def ProofMsg.Sign (C : CryptoModel) (a : ProofMsg) (priv : Nat) : Except Nat ProofMsg :=
  match C.hashPD a.detail with
  | .error e => .error e
  | .ok hash =>
    match C.ecSign hash priv with
    | .error e => .error e
    | .ok sig => .ok { a with signature := hexutilEncode sig }

/-- Embeds `ProofMsg.Verify`: hash the detail, decode the stored signature
with `common.FromHex`, recover and cache the compressed public key when the
cache is empty, then check the signature stripped of its recovery byte
against the cached key.  Returns the outcome together with the (possibly
cache-updated) message.  Go evaluates `sig[:len(sig)-1]`, which panics when
the decoded signature is empty; that abort is the `crash` outcome. -/
def ProofMsg.Verify (C : CryptoModel) (a : ProofMsg) : VerifyOutcome × ProofMsg :=
  match C.hashPD a.detail with
  | .error e => (.err e, a)
  | .ok hash =>
    let sig := fromHex a.signature
    if a.publicKey = [] then
      match C.sigToPub hash sig with
      | .error e => (.err e, a)
      | .ok pk =>
        let a' := { a with publicKey := bytes2Hex (C.compressPubkey pk) }
        match sig with
        | [] => (.crash, a')
        | _ :: _ =>
          (.ok (C.verifySignature (fromHex a'.publicKey) hash (sig.take (sig.length - 1))), a')
    else
      match sig with
      | [] => (.crash, a)
      | _ :: _ =>
        (.ok (C.verifySignature (fromHex a.publicKey) hash (sig.take (sig.length - 1))), a)

/-- Embeds `ProofMsg.PublicKey`: return the cached key, or hash, decode the
signature, recover, cache and return the compressed key. -/
def ProofMsg.PublicKey (C : CryptoModel) (a : ProofMsg) : Except Nat (List Nat) × ProofMsg :=
  if a.publicKey = [] then
    match C.hashPD a.detail with
    | .error e => (.error e, a)
    | .ok hash =>
      match C.sigToPub hash (fromHex a.signature) with
      | .error e => (.error e, a)
      | .ok pk =>
        let key := bytes2Hex (C.compressPubkey pk)
        (.ok key, { a with publicKey := key })
  else (.ok a.publicKey, a)

/-- Go error values returned by `BatchProof.SanityCheck` (the texts are
`agg_proof is nil`, `proof not ready`, and `proof buffer has wrong length,
expected: 32, got: n`). -/
inductive SanityErr where
  | aggProofNil : SanityErr
  | proofNotReady : SanityErr
  | wrongLength : Nat → SanityErr
deriving DecidableEq

/-- Embeds `BatchProof.SanityCheck` (a Go pointer-receiver method; the
receiver is `Option BatchProof` so the nil check is represented).  `none`
result is Go's nil error. -/
def BatchProof.SanityCheck : Option BatchProof → Option SanityErr
  | none => some .aggProofNil
  | some ap =>
    if ap.proof.length = 0 then some .proofNotReady
    else if ap.proof.length % 32 ≠ 0 then some (.wrongLength ap.proof.length)
    else none

/-! ## Batch proposer

Embeds `WatcherClient.tryProposeBatch` and
`WatcherClient.createBatchForBlocks` from the layer-2 watcher.  The ordered
result of `GetUnbatchedBlocks` and the current Unix time are parameters; the
store itself is modelled by an explicit transactional state for
`createBatchForBlocks`.  All `uint64` additions of the Go code wrap modulo
`2 ^ 64`. -/

/-- Embeds the `batchTimeSec` constant (five minutes, in seconds). -/
def batchTimeSec : Nat := 5 * 60

/-- Embeds the `batchGasThreshold` constant. -/
def batchGasThreshold : Nat := 3000000

/-- Embeds the `batchBlocksLimit` constant (the fetch LIMIT). -/
def batchBlocksLimit : Nat := 100

/-- Embeds the fields of `orm.BlockInfo` the proposer reads: sequence
number, transaction count, gas used, Unix timestamp, parent hash. -/
structure BlockInfo where
  number : Nat
  txNum : Nat
  gasUsed : Nat
  blockTimestamp : Nat
  parentHash : List Nat
deriving DecidableEq

/-- Total (mathematical, non-wrapping) gas of a block list. -/
def gasSum : List BlockInfo → Nat
  | [] => 0
  | b :: rest => b.gasUsed + gasSum rest

/-- Embeds the greedy accumulation loop of `tryProposeBatch`: starting from
the running `uint64` counters, walk the blocks; stop before a block whose
inclusion would push the wrapped cumulative gas over `batchGasThreshold`;
otherwise add its transaction count and gas (wrapping) and select it.
Returns the selected blocks and the final counters `(txNum, gasUsed)`. -/
def accumulate : Nat → Nat → List BlockInfo → List BlockInfo × Nat × Nat
  | txNum, gasUsed, [] => ([], txNum, gasUsed)
  | txNum, gasUsed, b :: rest =>
    if (gasUsed + b.gasUsed) % U64 > batchGasThreshold then ([], txNum, gasUsed)
    else
      let r := accumulate ((txNum + b.txNum) % U64) ((gasUsed + b.gasUsed) % U64) rest
      (b :: r.1, r.2.1, r.2.2)

/-- Decision taken by one invocation of `tryProposeBatch` after a successful
fetch: idle no-op on an empty fetch, deferral (`return nil` without a
batch), the process-aborting branch (carrying `blocks[0].GasUsed`, the value
interpolated into the Go panic message), or a call to
`createBatchForBlocks` with the listed arguments. -/
inductive ProposeOutcome where
  | noop : ProposeOutcome
  | deferred : ProposeOutcome
  | fatal : Nat → ProposeOutcome
  | propose : List Nat → List BlockInfo → List Nat → Nat → Nat → ProposeOutcome
deriving DecidableEq

/-- Embeds the body of `tryProposeBatch` after `GetUnbatchedBlocks`
returned `blocks` (ordered by ascending number, at most
`batchBlocksLimit` entries) with `now` the current Unix time as `uint64`:
empty guard, greedy accumulation, idle deferral (all blocks consumed, gas
under threshold, oldest block younger than `batchTimeSec`), degenerate-block
abort, and otherwise the proposal
`createBatchForBlocks(ids, blocks, blocks[0].ParentHash, txNum, gasUsed)`. -/
def tryProposeBatch (blocks : List BlockInfo) (now : Nat) : ProposeOutcome :=
  match blocks with
  | [] => .noop
  | b0 :: rest =>
    let acc := accumulate 0 0 (b0 :: rest)
    if acc.1.length = (b0 :: rest).length ∧ acc.2.2 < batchGasThreshold ∧
        (b0.blockTimestamp + batchTimeSec) % U64 > now then
      .deferred
    else
      match acc.1 with
      | [] => .fatal b0.gasUsed
      | sb :: sbrest =>
        .propose ((sb :: sbrest).map BlockInfo.number) (sb :: sbrest)
          sb.parentHash acc.2.1 acc.2.2

/-- A persisted batch row: generated id, block range, parent hash and the
aggregate counters passed to `NewBatchInDBTx`. -/
structure BatchRow where
  batchID : List Nat
  startBlock : Nat
  endBlock : Nat
  parentHash : List Nat
  txNum : Nat
  gasUsed : Nat
deriving DecidableEq

/-- Committed store state seen by the proposer: batch rows and the
block-number-to-batch-id assignments. -/
structure DBState where
  batches : List BatchRow
  assignments : List (Nat × List Nat)
deriving DecidableEq

/-- Failure injection for one `createBatchForBlocks` attempt: whether
`Beginx`, `NewBatchInDBTx`, `SetBatchIDForBlocksInDBTx` or `Commit` fail
(with which error code), and the batch id generated on success. -/
structure StoreOracle where
  beginErr : Option Nat
  newBatchErr : Option Nat
  setErr : Option Nat
  commitErr : Option Nat
  newID : List Nat
deriving DecidableEq

/-- An open transaction: the committed state it started from and the
pending state holding its buffered writes.  `Rollback` restores the
committed state; `Commit` publishes the pending one. -/
structure DBTx where
  committed : DBState
  pending : DBState
deriving DecidableEq

instance : Inhabited BlockInfo := ⟨⟨0, 0, 0, 0, []⟩⟩

/-- Embeds `WatcherClient.createBatchForBlocks`: begin a transaction, insert
the batch row (`NewBatchInDBTx` over `blocks[0]`, `blocks[len-1]`), assign
the generated batch id to all block numbers
(`SetBatchIDForBlocksInDBTx`), commit; on any failure return the error with
the deferred `dbTx.Rollback()` having discarded the pending writes.
Returns the Go `error` result and the resulting committed store state. -/
def createBatchForBlocks (o : StoreOracle) (db : DBState) (blockIDs : List Nat)
    (blocks : List BlockInfo) (parentHash : List Nat) (txNum gasUsed : Nat) :
    Except Nat Unit × DBState :=
  match o.beginErr with
  | some e => (.error e, db)
  | none =>
    let tx0 : DBTx := ⟨db, db⟩
    match o.newBatchErr with
    | some e => (.error e, tx0.committed)
    | none =>
      let row : BatchRow := ⟨o.newID, (blocks.headD default).number,
        (blocks.getLastD default).number, parentHash, txNum, gasUsed⟩
      let tx1 : DBTx := { tx0 with pending :=
        { tx0.pending with batches := tx0.pending.batches ++ [row] } }
      match o.setErr with
      | some e => (.error e, tx1.committed)
      | none =>
        let tx2 : DBTx := { tx1 with pending :=
          { tx1.pending with assignments :=
            tx1.pending.assignments ++ blockIDs.map (fun n => (n, o.newID)) } }
        match o.commitErr with
        | some e => (.error e, tx2.committed)
        | none => (.ok (), tx2.pending)

/-! ## Concrete instances used by the closed witnesses

`toyCrypto` is a small `CryptoModel` satisfying the ECDSA correctness facts
the theorems hypothesize: private keys map to public key `k % 256`, a
signature is 65 bytes whose first byte determines the key, recovery demands
exactly 65 bytes, and verification checks a 64-byte signature against the
key byte it embeds. -/

/-- Toy 65-byte recoverable signature for key `k`. -/
def toySig (k : Nat) : List Nat := k % 256 :: (List.replicate 63 0 ++ [0])

/-- Toy crypto model used for witnesses (hash is a fixed digest; error code
1 is recovery failure on a wrong-length signature). -/
def toyCrypto : CryptoModel where
  hashPD := fun _ => .ok [1, 2, 3]
  ecSign := fun _ k => .ok (toySig k)
  sigToPub := fun _ sig => if sig.length = 65 then .ok (sig.headD 0) else .error 1
  compressPubkey := fun pk => [pk % 256]
  verifySignature := fun pkBytes _ sig =>
    decide (pkBytes = [sig.headD 0 % 256] ∧ sig.length = 64)

/-- A small `ProofDetail` value. -/
def sampleDetail : ProofDetail := ⟨[], 0, 0, none, none, []⟩

/-- A fresh unsigned message over `sampleDetail`. -/
def sampleMsg : ProofMsg := ⟨sampleDetail, [], []⟩

/-- The message produced by `ProofMsg.Sign toyCrypto sampleMsg 5`. -/
def signedSample : ProofMsg := ⟨sampleDetail, hexutilEncode (toySig 5), []⟩

/-- The signature of `signedSample` with its second byte flipped from 0
to 1. -/
def flippedSig : List Nat := (toySig 5).set 1 1

/-- The message `signedSample` after the single-byte signature flip. -/
def flippedMsg : ProofMsg := ⟨sampleDetail, hexutilEncode flippedSig, []⟩

/-- A message signed by toy key 7, used by the self-recovery witness. -/
def selfRecoveryMsg : ProofMsg := ⟨sampleDetail, hexutilEncode (toySig 7), []⟩

/-- A message whose signature string is not hex (`zz`, codes 122) and whose
public-key cache is already populated (with hex `05`, codes 48/53). -/
def cachedBadSigMsg : ProofMsg := ⟨sampleDetail, [122, 122], [48, 53]⟩

/-- A `ProofDetail` with nested content, for the hash-sensitivity witness. -/
def richDetail : ProofDetail :=
  ⟨[116, 49], 2, 0, none, some ⟨List.replicate 64 7, [1], [2], [118]⟩, []⟩

/-- The detail `richDetail` with a single field mutated. -/
def richDetailMut : ProofDetail :=
  ⟨[116, 49], 2, 1, none, some ⟨List.replicate 64 7, [1], [2], [118]⟩, []⟩

/-- The gas-usage example of the specification:
`[1_000_000, 1_000_000, 1_500_000, 500_000]`. -/
def demoBlocks : List BlockInfo :=
  [⟨1, 10, 1000000, 0, []⟩, ⟨2, 20, 1000000, 0, []⟩,
   ⟨3, 30, 1500000, 0, []⟩, ⟨4, 40, 500000, 0, []⟩]

/-- Two blocks exhibiting `uint64` wrap-around in the gas accumulation. -/
def overflowBlocks : List BlockInfo :=
  [⟨1, 0, 2000000, 0, []⟩, ⟨2, 0, U64 - 1500000, 0, []⟩]

/-- A fresh single block far under the gas threshold (timestamp 1000). -/
def freshBlock : BlockInfo := ⟨1, 2, 100000, 1000, []⟩

/-- A block whose timestamp makes `BlockTimestamp + batchTimeSec` wrap. -/
def overflowTsBlock : BlockInfo := ⟨1, 1, 1, U64 - 200, []⟩

/-- A block whose gas alone exceeds the threshold. -/
def oversizedBlock : BlockInfo := ⟨1, 0, 4000000, 0, []⟩

end Scroll

namespace Scroll

theorem fromHexChar_hexChar (v : Nat) (hv : v < 16) : fromHexChar (hexChar v) = some v := by
  interval_cases v <;> rfl

theorem bytesToHexChars_length (bs : Bytes) : (bytesToHexChars bs).length = 2 * bs.length := by
  induction bs with
  | nil => rfl
  | cons b rest ih => simp [bytesToHexChars, ih]; omega

theorem hexDecodeGreedy_bytesToHexChars (bs : Bytes) (h : ∀ b ∈ bs, b < 256) :
    hexDecodeGreedy (bytesToHexChars bs) = bs := by
  induction bs with
  | nil => rfl
  | cons b rest ih =>
    have hb : b < 256 := h b (by simp)
    have h1 : b / 16 < 16 := by omega
    have h2 : b % 16 < 16 := by omega
    simp only [bytesToHexChars, hexDecodeGreedy, fromHexChar_hexChar _ h1,
      fromHexChar_hexChar _ h2]
    rw [ih (fun x hx => h x (by simp [hx]))]
    congr 1
    omega

theorem hexChar_lt (v : Nat) (hv : v < 16) : hexChar v ≤ 102 := by
  unfold hexChar; split <;> omega

theorem hexChar_ne_120 (v : Nat) (hv : v < 16) : hexChar v ≠ 120 := by
  unfold hexChar; split <;> omega

theorem hexChar_ne_88 (v : Nat) (hv : v < 16) : hexChar v ≠ 88 := by
  unfold hexChar; split <;> omega

theorem fromHex_hexutilEncode (bs : Bytes) (h : ∀ b ∈ bs, b < 256) :
    fromHex (hexutilEncode bs) = bs := by
  have heven : ¬((bytesToHexChars bs).length % 2 = 1) := by
    rw [bytesToHexChars_length]; omega
  have hstrip : strip0x (hexutilEncode bs) = bytesToHexChars bs := by
    unfold strip0x hexutilEncode
    rw [if_pos]
    · rfl
    · exact Or.inl rfl
  unfold fromHex
  rw [hstrip]
  unfold padOdd
  rw [if_neg heven]
  exact hexDecodeGreedy_bytesToHexChars bs h

theorem fromHex_bytes2Hex (bs : Bytes) (h : ∀ b ∈ bs, b < 256) :
    fromHex (bytes2Hex bs) = bs := by
  have hpre : ¬((bytesToHexChars bs).take 2 = [48, 120] ∨
      (bytesToHexChars bs).take 2 = [48, 88]) := by
    cases bs with
    | nil => simp [bytesToHexChars]
    | cons b rest =>
      have hb : b < 256 := h b (by simp)
      have h2 : b % 16 < 16 := by omega
      simp only [bytesToHexChars, List.take]
      have hx := hexChar_ne_120 (b % 16) h2
      have hy := hexChar_ne_88 (b % 16) h2
      simp [hx, hy]
  have heven : ¬((bytesToHexChars bs).length % 2 = 1) := by
    rw [bytesToHexChars_length]; omega
  unfold fromHex bytes2Hex strip0x padOdd
  rw [if_neg hpre, if_neg heven]
  exact hexDecodeGreedy_bytesToHexChars bs h

theorem natBEFuel_congr : ∀ f1 f2 n : Nat, n ≤ f1 → n ≤ f2 →
    natBEFuel f1 n = natBEFuel f2 n := by
  intro f1
  induction f1 with
  | zero =>
    intro f2 n h1 _
    interval_cases n
    cases f2 <;> rfl
  | succ g1 ih =>
    intro f2 n h1 h2
    cases n with
    | zero => cases f2 <;> rfl
    | succ m =>
      cases f2 with
      | zero => omega
      | succ g2 =>
        have hlt := Nat.div_lt_self (Nat.succ_pos m) (by omega : 1 < 256)
        show natBEFuel g1 ((m + 1) / 256) ++ [(m + 1) % 256] =
          natBEFuel g2 ((m + 1) / 256) ++ [(m + 1) % 256]
        rw [ih g2 ((m + 1) / 256) (by omega) (by omega)]

theorem natBE_eq (n : Nat) (h : n ≠ 0) : natBE n = natBE (n / 256) ++ [n % 256] := by
  cases n with
  | zero => exact absurd rfl h
  | succ m =>
    have hlt := Nat.div_lt_self (Nat.succ_pos m) (by omega : 1 < 256)
    show natBEFuel m ((m + 1) / 256) ++ [(m + 1) % 256] =
      natBEFuel ((m + 1) / 256) ((m + 1) / 256) ++ [(m + 1) % 256]
    rw [natBEFuel_congr m ((m + 1) / 256) ((m + 1) / 256) (by omega) (le_refl _)]

theorem natBE_zero : natBE 0 = [] := rfl

theorem natBE_eq_nil_iff (n : Nat) : natBE n = [] ↔ n = 0 := by
  constructor
  · intro h
    by_contra hn
    rw [natBE_eq n hn] at h
    simp at h
  · intro h; subst h; exact natBE_zero

theorem natBE_ne_nil (n : Nat) (h : n ≠ 0) : natBE n ≠ [] := by
  intro he
  exact h ((natBE_eq_nil_iff n).mp he)

theorem natBE_inj : ∀ a b : Nat, natBE a = natBE b → a = b := by
  intro a
  induction a using Nat.strong_induction_on with
  | _ a ih =>
    intro b h
    by_cases ha : a = 0
    · subst ha
      by_cases hb : b = 0
      · omega
      · rw [natBE_zero, natBE_eq b hb] at h
        simp at h
    · by_cases hb : b = 0
      · subst hb
        rw [natBE_zero, natBE_eq a ha] at h
        simp at h
      · rw [natBE_eq a ha, natBE_eq b hb] at h
        have hlen : (natBE (a / 256)).length = (natBE (b / 256)).length := by
          have := congrArg List.length h
          simp at this
          omega
        obtain ⟨h1, h2⟩ := List.append_inj h hlen
        have hdiv : a / 256 = b / 256 :=
          ih (a / 256) (Nat.div_lt_self (by omega) (by omega)) (b / 256) h1
        have hmod : a % 256 = b % 256 := by
          injection h2
        omega

theorem natBE_length_le : ∀ (k a : Nat), a < 256 ^ k → (natBE a).length ≤ k := by
  intro k
  induction k with
  | zero =>
    intro a ha
    interval_cases a
    simp [natBE, natBEFuel]
  | succ k ihk =>
    intro a ha
    by_cases h0 : a = 0
    · subst h0; simp [natBE, natBEFuel]
    · rw [natBE_eq a h0]
      have hdiv : a / 256 < 256 ^ k := by
        rw [Nat.div_lt_iff_lt_mul (by omega)]
        calc a < 256 ^ (k + 1) := ha
        _ = 256 ^ k * 256 := by rw [pow_succ]
      have := ihk (a / 256) hdiv
      simp
      omega

theorem encStr_cases (bs : List Nat) :
    (∃ b, bs = [b] ∧ b < 128 ∧ encStr bs = [b]) ∨
    (bs.length < 56 ∧ encStr bs = (128 + bs.length) :: bs) ∨
    (56 ≤ bs.length ∧
      encStr bs = (183 + (natBE bs.length).length) :: (natBE bs.length ++ bs)) := by
  unfold encStr
  split_ifs with h1 h2
  · left
    obtain ⟨b, hb⟩ := List.length_eq_one.mp h1.1
    refine ⟨b, hb, ?_, hb⟩
    have := h1.2
    rw [hb] at this
    simpa using this
  · right; left; exact ⟨h2, rfl⟩
  · right; right; exact ⟨by omega, rfl⟩

theorem encStr_append_inj (bs cs r s : List Nat)
    (h : encStr bs ++ r = encStr cs ++ s) : bs = cs ∧ r = s := by
  rcases encStr_cases bs with ⟨b, hbs, hblt, hbe⟩ | ⟨hblen, hbe⟩ | ⟨hblen, hbe⟩ <;>
    rcases encStr_cases cs with ⟨c, hcs, hclt, hce⟩ | ⟨hclen, hce⟩ | ⟨hclen, hce⟩ <;>
      rw [hbe, hce] at h <;> simp only [List.cons_append, List.append_assoc] at h
  · -- single byte vs single byte
    injection h with h1 h2
    subst h1
    exact ⟨hbs.trans hcs.symm, h2⟩
  · -- single byte vs short header: head below 128 against head at least 128
    injection h with h1 _
    omega
  · -- single byte vs long header: head below 128 against head at least 184
    have hll : 0 < (natBE cs.length).length :=
      List.length_pos.mpr (natBE_ne_nil cs.length (by omega))
    injection h with h1 _
    omega
  · injection h with h1 _
    omega
  · -- short vs short: lengths agree, then cancel
    injection h with h1 h2
    have hlen : bs.length = cs.length := by omega
    exact List.append_inj h2 hlen
  · -- short vs long: head at most 183 against head at least 184
    have hll : 0 < (natBE cs.length).length :=
      List.length_pos.mpr (natBE_ne_nil cs.length (by omega))
    injection h with h1 _
    omega
  · have hll : 0 < (natBE bs.length).length :=
      List.length_pos.mpr (natBE_ne_nil bs.length (by omega))
    injection h with h1 _
    omega
  · have hll : 0 < (natBE bs.length).length :=
      List.length_pos.mpr (natBE_ne_nil bs.length (by omega))
    injection h with h1 _
    omega
  · -- long vs long: length-of-length agrees, then big-endian lengths, then cancel
    injection h with h1 h2
    have hll : (natBE bs.length).length = (natBE cs.length).length := by omega
    obtain ⟨hbe2, htail⟩ := List.append_inj h2 hll
    have hlen : bs.length = cs.length := natBE_inj _ _ hbe2
    exact List.append_inj htail hlen

theorem encodeItem_str (bs : List Nat) : encodeItem (.str bs) = encStr bs := rfl

theorem encStr_head_lt (bs : List Nat) (hwf : bs.length < 2 ^ 64) :
    ∃ hd tl, encStr bs = hd :: tl ∧ hd < 192 := by
  rcases encStr_cases bs with ⟨b, hbs, hblt, hbe⟩ | ⟨hblen, hbe⟩ | ⟨hblen, hbe⟩
  · exact ⟨b, [], hbe, by omega⟩
  · exact ⟨128 + bs.length, bs, hbe, by omega⟩
  · have h8 : (natBE bs.length).length ≤ 8 := by
      apply natBE_length_le 8
      calc bs.length < 2 ^ 64 := hwf
      _ = 256 ^ 8 := by norm_num
    exact ⟨_, _, hbe, by omega⟩

theorem encodeItem_list_cases (l : ItemList) :
    ((encodeList l).length < 56 ∧
      encodeItem (.list l) = (192 + (encodeList l).length) :: encodeList l) ∨
    (56 ≤ (encodeList l).length ∧
      encodeItem (.list l) = (247 + (natBE (encodeList l).length).length) ::
        (natBE (encodeList l).length ++ encodeList l)) := by
  unfold encodeItem
  split_ifs with h1
  · left; exact ⟨h1, rfl⟩
  · right; exact ⟨by omega, rfl⟩

theorem encodeItem_list_head_ge (l : ItemList) :
    ∃ hd tl, encodeItem (.list l) = hd :: tl ∧ 192 ≤ hd := by
  rcases encodeItem_list_cases l with ⟨_, he⟩ | ⟨_, he⟩
  · exact ⟨_, _, he, by omega⟩
  · exact ⟨_, _, he, by omega⟩

theorem encodeItem_ne_nil (a : Item) : encodeItem a ≠ [] := by
  cases a with
  | str bs =>
    rw [encodeItem_str]
    rcases encStr_cases bs with ⟨b, _, _, hbe⟩ | ⟨_, hbe⟩ | ⟨_, hbe⟩ <;> simp [hbe]
  | list l =>
    obtain ⟨hd, tl, he, _⟩ := encodeItem_list_head_ge l
    simp [he]

mutual

theorem encodeItem_append_inj : ∀ (a b : Item) (r s : List Nat),
    itemWF a = true → itemWF b = true →
    encodeItem a ++ r = encodeItem b ++ s → a = b ∧ r = s
  | .str bs, .str cs, r, s, _, _, h => by
    have hsc := encStr_append_inj bs cs r s (by
      rw [encodeItem_str, encodeItem_str] at h
      exact h)
    exact ⟨by rw [hsc.1], hsc.2⟩
  | .str bs, .list lb, r, s, ha, _, h => by
    exfalso
    have hwf : bs.length < 2 ^ 64 := by simpa [itemWF] using ha
    obtain ⟨hd1, tl1, he1, hlt⟩ := encStr_head_lt bs hwf
    obtain ⟨hd2, tl2, he2, hge⟩ := encodeItem_list_head_ge lb
    rw [encodeItem_str, he1, he2] at h
    simp only [List.cons_append] at h
    injection h with h1 _
    omega
  | .list la, .str cs, r, s, _, hb, h => by
    exfalso
    have hwf : cs.length < 2 ^ 64 := by simpa [itemWF] using hb
    obtain ⟨hd1, tl1, he1, hge⟩ := encodeItem_list_head_ge la
    obtain ⟨hd2, tl2, he2, hlt⟩ := encStr_head_lt cs hwf
    rw [encodeItem_str, he2, he1] at h
    simp only [List.cons_append] at h
    injection h with h1 _
    omega
  | .list la, .list lb, r, s, ha, hb, h => by
    have hwa : listWF la = true := by simpa [itemWF] using ha
    have hwb : listWF lb = true := by simpa [itemWF] using hb
    rcases encodeItem_list_cases la with ⟨hla, hea⟩ | ⟨hla, hea⟩ <;>
      rcases encodeItem_list_cases lb with ⟨hlb, heb⟩ | ⟨hlb, heb⟩ <;>
        rw [hea, heb] at h <;>
          simp only [List.cons_append, List.append_assoc] at h
    · -- short list header on both sides
      injection h with h1 h2
      have hlen : (encodeList la).length = (encodeList lb).length := by omega
      obtain ⟨hp, hrs⟩ := List.append_inj h2 hlen
      have := encodeList_inj la lb hwa hwb hp
      exact ⟨by rw [this], hrs⟩
    · exfalso
      have hll : 0 < (natBE (encodeList lb).length).length :=
        List.length_pos.mpr (natBE_ne_nil _ (by omega))
      injection h with h1 _
      omega
    · exfalso
      have hll : 0 < (natBE (encodeList la).length).length :=
        List.length_pos.mpr (natBE_ne_nil _ (by omega))
      injection h with h1 _
      omega
    · -- long list header on both sides
      injection h with h1 h2
      have hll : (natBE (encodeList la).length).length =
          (natBE (encodeList lb).length).length := by omega
      obtain ⟨hbe2, htail⟩ := List.append_inj h2 hll
      have hlen : (encodeList la).length = (encodeList lb).length :=
        natBE_inj _ _ hbe2
      obtain ⟨hp, hrs⟩ := List.append_inj htail hlen
      have := encodeList_inj la lb hwa hwb hp
      exact ⟨by rw [this], hrs⟩

theorem encodeList_inj : ∀ (la lb : ItemList), listWF la = true → listWF lb = true →
    encodeList la = encodeList lb → la = lb
  | .nil, .nil, _, _, _ => rfl
  | .nil, .cons b lb', _, _, h => by
    exfalso
    have : encodeItem b ++ encodeList lb' = [] := by
      rw [show encodeList (ItemList.cons b lb') = encodeItem b ++ encodeList lb' from rfl] at h
      exact h.symm
    rcases List.append_eq_nil.mp this with ⟨hnil, _⟩
    exact encodeItem_ne_nil b hnil
  | .cons a la', .nil, _, _, h => by
    exfalso
    have : encodeItem a ++ encodeList la' = [] := by
      rw [show encodeList (ItemList.cons a la') = encodeItem a ++ encodeList la' from rfl] at h
      exact h
    rcases List.append_eq_nil.mp this with ⟨hnil, _⟩
    exact encodeItem_ne_nil a hnil
  | .cons a la', .cons b lb', ha, hb, h => by
    have hwa1 : itemWF a = true := by
      have := ha
      simp [listWF, Bool.and_eq_true] at this
      exact this.1
    have hwa2 : listWF la' = true := by
      have := ha
      simp [listWF, Bool.and_eq_true] at this
      exact this.2
    have hwb1 : itemWF b = true := by
      have := hb
      simp [listWF, Bool.and_eq_true] at this
      exact this.1
    have hwb2 : listWF lb' = true := by
      have := hb
      simp [listWF, Bool.and_eq_true] at this
      exact this.2
    have h' : encodeItem a ++ encodeList la' = encodeItem b ++ encodeList lb' := h
    obtain ⟨hab, htail⟩ :=
      encodeItem_append_inj a b (encodeList la') (encodeList lb') hwa1 hwb1 h'
    have := encodeList_inj la' lb' hwa2 hwb2 htail
    rw [hab, this]

end

/-- Plain injectivity of the RLP encoding on well-formed items. -/
theorem encodeItem_inj (a b : Item) (ha : itemWF a = true) (hb : itemWF b = true)
    (h : encodeItem a = encodeItem b) : a = b := by
  have := encodeItem_append_inj a b [] [] ha hb (by simpa using h)
  exact this.1

theorem rlpUint_inj (m n : Nat) (h : rlpUint m = rlpUint n) : m = n := by
  unfold rlpUint at h
  injection h with h'
  exact natBE_inj _ _ h'

theorem rlpBool_inj (a b : Bool) (h : rlpBool a = rlpBool b) : a = b := by
  cases a <;> cases b <;> simp [rlpBool] at h ⊢

theorem chunkInfoItem_inj (c c' : ChunkInfo) (h : c.rlpItem = c'.rlpItem) :
    c = c' := by
  cases c with | mk a1 a2 a3 a4 a5 a6 a7 =>
  cases c' with | mk b1 b2 b3 b4 b5 b6 b7 =>
  simp only [ChunkInfo.rlpItem, il, rlpUint, rlpBool, Item.list.injEq,
    ItemList.cons.injEq, Item.str.injEq, and_true] at h
  obtain ⟨h1, h2, h3, h4, h5, h6, h7⟩ := h
  simp only [ChunkInfo.mk.injEq]
  refine ⟨natBE_inj _ _ h1, h2, h3, h4, h5, ?_, h7⟩
  cases a6 <;> cases b6 <;> simp_all

theorem rowUsageItem_inj (u u' : SubCircuitRowUsage)
    (h : u.rlpItem = u'.rlpItem) : u = u' := by
  cases u with | mk a1 a2 =>
  cases u' with | mk b1 b2 =>
  simp only [SubCircuitRowUsage.rlpItem, il, rlpUint, Item.list.injEq,
    ItemList.cons.injEq, Item.str.injEq, and_true] at h
  obtain ⟨h1, h2⟩ := h
  simp only [SubCircuitRowUsage.mk.injEq]
  exact ⟨h1, natBE_inj _ _ h2⟩

theorem il_map_rlp_inj : ∀ l l' : List SubCircuitRowUsage,
    il (l.map SubCircuitRowUsage.rlpItem) = il (l'.map SubCircuitRowUsage.rlpItem) →
    l = l' := by
  intro l
  induction l with
  | nil =>
    intro l' h
    cases l' with
    | nil => rfl
    | cons b t => simp [il] at h
  | cons a t ih =>
    intro l' h
    cases l' with
    | nil => simp [il] at h
    | cons b t' =>
      simp only [List.map, il, ItemList.cons.injEq] at h
      obtain ⟨h1, h2⟩ := h
      rw [rowUsageItem_inj _ _ h1, ih t' h2]

theorem chunkInfoItem_ne_empty (c : ChunkInfo) : c.rlpItem ≠ .list .nil := by
  cases c
  simp [ChunkInfo.rlpItem, il]

theorem chunkProofItem_ne_empty (p : ChunkProof) : p.rlpItem ≠ .list .nil := by
  cases p
  simp [ChunkProof.rlpItem, il]

theorem batchProofItem_ne_empty (p : BatchProof) : p.rlpItem ≠ .list .nil := by
  cases p
  simp [BatchProof.rlpItem, il]

theorem optStructItem_inj {α : Type} (f : α → Item)
    (hf : ∀ x y, f x = f y → x = y) (hne : ∀ x, f x ≠ .list .nil) :
    ∀ o o' : Option α, optStructItem f o = optStructItem f o' → o = o' := by
  intro o o' h
  cases o <;> cases o' <;> simp only [optStructItem] at h
  · rfl
  · exact absurd h.symm (hne _)
  · exact absurd h (hne _)
  · rw [hf _ _ h]

theorem chunkProofItem_inj (p p' : ChunkProof) (h : p.rlpItem = p'.rlpItem) :
    p = p' := by
  cases p with | mk a1 a2 a3 a4 a5 a6 a7 a8 =>
  cases p' with | mk b1 b2 b3 b4 b5 b6 b7 b8 =>
  simp only [ChunkProof.rlpItem, il, Item.list.injEq, ItemList.cons.injEq,
    Item.str.injEq, and_true] at h
  obtain ⟨h1, h2, h3, h4, h5, h6, h7, h8⟩ := h
  simp only [ChunkProof.mk.injEq]
  refine ⟨h1, h2, h3, h4, h5, ?_, h7, ?_⟩
  · exact optStructItem_inj ChunkInfo.rlpItem chunkInfoItem_inj
      chunkInfoItem_ne_empty _ _ h6
  · exact il_map_rlp_inj _ _ h8

theorem batchProofItem_inj (p p' : BatchProof) (h : p.rlpItem = p'.rlpItem) :
    p = p' := by
  cases p with | mk a1 a2 a3 a4 =>
  cases p' with | mk b1 b2 b3 b4 =>
  simp only [BatchProof.rlpItem, il, Item.list.injEq, ItemList.cons.injEq,
    Item.str.injEq, and_true] at h
  obtain ⟨h1, h2, h3, h4⟩ := h
  simp only [BatchProof.mk.injEq]
  exact ⟨h1, h2, h3, h4⟩

theorem proofDetailItem_inj (z z' : ProofDetail) (h : z.rlpItem = z'.rlpItem) :
    z = z' := by
  cases z with | mk a1 a2 a3 a4 a5 a6 =>
  cases z' with | mk b1 b2 b3 b4 b5 b6 =>
  simp only [ProofDetail.rlpItem, il, rlpUint, Item.list.injEq, ItemList.cons.injEq,
    Item.str.injEq, and_true] at h
  obtain ⟨h1, h2, h3, h4, h5, h6⟩ := h
  simp only [ProofDetail.mk.injEq]
  refine ⟨h1, natBE_inj _ _ h2, natBE_inj _ _ h3, ?_, ?_, h6⟩
  · exact optStructItem_inj ChunkProof.rlpItem chunkProofItem_inj
      chunkProofItem_ne_empty _ _ h4
  · exact optStructItem_inj BatchProof.rlpItem batchProofItem_inj
      batchProofItem_ne_empty _ _ h5

/-- Injectivity of the full RLP serialization of `ProofDetail` on
well-formed values. -/
theorem ProofDetail.rlpEncode_inj (z z' : ProofDetail)
    (hz : z.WF = true) (hz' : z'.WF = true)
    (h : z.rlpEncode = z'.rlpEncode) : z = z' :=
  proofDetailItem_inj z z' (encodeItem_inj _ _ hz hz' h)

theorem U64_eq : U64 = 18446744073709551616 := by norm_num [U64]

theorem batchGasThreshold_eq : batchGasThreshold = 3000000 := rfl

theorem accumulate_nil (t g : Nat) : accumulate t g [] = ([], t, g) := rfl

theorem accumulate_cons_stop (t g : Nat) (b : BlockInfo) (rest : List BlockInfo)
    (h : (g + b.gasUsed) % U64 > batchGasThreshold) :
    accumulate t g (b :: rest) = ([], t, g) := by
  simp [accumulate, h]

theorem accumulate_cons_step (t g : Nat) (b : BlockInfo) (rest : List BlockInfo)
    (h : ¬((g + b.gasUsed) % U64 > batchGasThreshold)) :
    accumulate t g (b :: rest) =
      ((b :: (accumulate ((t + b.txNum) % U64) ((g + b.gasUsed) % U64) rest).1),
       (accumulate ((t + b.txNum) % U64) ((g + b.gasUsed) % U64) rest).2.1,
       (accumulate ((t + b.txNum) % U64) ((g + b.gasUsed) % U64) rest).2.2) := by
  simp [accumulate, h]

/-- Core properties of the greedy accumulation when no `uint64` overflow
can occur: the selection is a prefix, its true cumulative gas (on top of the
running counter) stays within the threshold, the returned counter is the
true sum, and no longer prefix fits. -/
theorem accumulate_spec (bs : List BlockInfo) :
    ∀ t g : Nat, g ≤ batchGasThreshold →
    (∀ b ∈ bs, b.gasUsed ≤ U64 - 1 - batchGasThreshold) →
    (∃ k, (accumulate t g bs).1 = bs.take k) ∧
    g + gasSum (accumulate t g bs).1 ≤ batchGasThreshold ∧
    (accumulate t g bs).2.2 = g + gasSum (accumulate t g bs).1 ∧
    (∀ k, k ≤ bs.length → g + gasSum (bs.take k) ≤ batchGasThreshold →
      k ≤ (accumulate t g bs).1.length) := by
  induction bs with
  | nil =>
    intro t g hg _
    refine ⟨⟨0, rfl⟩, by simpa [gasSum], by simp [gasSum, accumulate_nil], ?_⟩
    intro k hk _
    rw [accumulate_nil]
    simpa using hk
  | cons b rest ih =>
    intro t g hg hng
    have hb : b.gasUsed ≤ U64 - 1 - batchGasThreshold := hng b (by simp)
    have hnw : g + b.gasUsed < U64 := by
      rw [U64_eq]
      rw [U64_eq] at hb
      simp only [batchGasThreshold_eq] at hb hg
      omega
    have hmod : (g + b.gasUsed) % U64 = g + b.gasUsed := Nat.mod_eq_of_lt hnw
    by_cases hstop : (g + b.gasUsed) % U64 > batchGasThreshold
    · rw [accumulate_cons_stop t g b rest hstop]
      rw [hmod] at hstop
      refine ⟨⟨0, rfl⟩, by simpa [gasSum], by simp [gasSum], ?_⟩
      intro k hk hsum
      match k with
      | 0 => simp
      | j + 1 =>
        exfalso
        rw [List.take_succ_cons] at hsum
        simp only [gasSum] at hsum
        omega
    · rw [accumulate_cons_step t g b rest hstop]
      rw [hmod] at hstop
      obtain ⟨⟨k', hk'⟩, hsum', hctr', hmax'⟩ :=
        ih ((t + b.txNum) % U64) ((g + b.gasUsed) % U64) (by rw [hmod]; omega)
          (fun x hx => hng x (by simp [hx]))
      set acc2 := accumulate ((t + b.txNum) % U64) ((g + b.gasUsed) % U64) rest with hacc2
      rw [hmod] at hsum' hctr'
      refine ⟨⟨k' + 1, by rw [List.take_succ_cons, hk']⟩, ?_, ?_, ?_⟩
      · simp only [gasSum]
        omega
      · simp only [gasSum]
        omega
      · intro k hk hsum
        match k with
        | 0 => simp
        | j + 1 =>
          rw [List.take_succ_cons] at hsum
          simp only [gasSum] at hsum
          have hj := hmax' j (by simpa using hk) (by rw [hmod]; omega)
          simp only [List.length_cons]
          omega

/-! ## Claim theorems -/

/-- Claim C4 (amended with the no-overflow proviso): provided every fetched
block's gas used is at most `2 ^ 64 - 1 - 3000000` (so the `uint64` gas
accumulation cannot wrap), the greedy accumulation of `tryProposeBatch`
selects exactly the maximal prefix of the ordered block list whose
cumulative gas is at most 3,000,000 — the selection is a prefix, its
cumulative gas never exceeds the threshold, no longer prefix fits under the
threshold — and on the gas usages
`[1_000_000, 1_000_000, 1_500_000, 500_000]` it selects exactly the first
two blocks. -/
theorem c4_greedy_maximal_prefix (blocks : List BlockInfo)
    (hng : ∀ b ∈ blocks, b.gasUsed ≤ U64 - 1 - batchGasThreshold) :
    (∃ k, (accumulate 0 0 blocks).1 = blocks.take k) ∧
    gasSum (accumulate 0 0 blocks).1 ≤ batchGasThreshold ∧
    (∀ k, k ≤ blocks.length → gasSum (blocks.take k) ≤ batchGasThreshold →
      k ≤ (accumulate 0 0 blocks).1.length) ∧
    (accumulate 0 0 demoBlocks).1 = demoBlocks.take 2 := by
  obtain ⟨hpre, hsum, -, hmax⟩ :=
    accumulate_spec blocks 0 0 (Nat.zero_le _) hng
  refine ⟨hpre, by simpa using hsum, ?_, by decide⟩
  intro k hk hs
  exact hmax k hk (by simpa using hs)

/-- Claim C4 counterexample (uint64 wrap-around): on two valid `uint64` gas
values the Go accumulation wraps, selects both blocks, and the cumulative
gas of the selected prefix exceeds the 3,000,000 threshold — refuting the
unconditional claim that the selection is the maximal under-threshold
prefix and never exceeds the threshold. -/
theorem c4_overflow_counterexample :
    (accumulate 0 0 overflowBlocks).1 = overflowBlocks ∧
    batchGasThreshold < gasSum (accumulate 0 0 overflowBlocks).1 := by decide

theorem c4_witness :
    (∃ k, (accumulate 0 0 demoBlocks).1 = demoBlocks.take k) ∧
    gasSum (accumulate 0 0 demoBlocks).1 ≤ batchGasThreshold ∧
    (∀ k, k ≤ demoBlocks.length → gasSum (demoBlocks.take k) ≤ batchGasThreshold →
      k ≤ (accumulate 0 0 demoBlocks).1.length) ∧
    (accumulate 0 0 demoBlocks).1 = demoBlocks.take 2 :=
  c4_greedy_maximal_prefix demoBlocks (by decide)

/-- Claim C5 (amended with the no-overflow proviso on the oldest block's
timestamp): when the accumulation consumed every fetched block, the
accumulated gas is strictly under the threshold and the oldest block is
younger than five minutes, `tryProposeBatch` returns nil without proposing;
in every other case with a non-empty accumulated prefix it proposes exactly
the accumulated prefix; concretely, a single fresh under-threshold block
(timestamp 1000) is deferred at time 1100 and proposed at time 1300. -/
theorem c5_idle_deferral (b0 : BlockInfo) (rest : List BlockInfo) (now : Nat)
    (hts : b0.blockTimestamp + batchTimeSec < U64) :
    ((accumulate 0 0 (b0 :: rest)).1.length = (b0 :: rest).length ∧
      (accumulate 0 0 (b0 :: rest)).2.2 < batchGasThreshold ∧
      now < b0.blockTimestamp + batchTimeSec →
      tryProposeBatch (b0 :: rest) now = .deferred) ∧
    (∀ sb sbrest, (accumulate 0 0 (b0 :: rest)).1 = sb :: sbrest →
      ¬((accumulate 0 0 (b0 :: rest)).1.length = (b0 :: rest).length ∧
        (accumulate 0 0 (b0 :: rest)).2.2 < batchGasThreshold ∧
        now < b0.blockTimestamp + batchTimeSec) →
      tryProposeBatch (b0 :: rest) now =
        .propose ((sb :: sbrest).map BlockInfo.number) (sb :: sbrest) sb.parentHash
          (accumulate 0 0 (b0 :: rest)).2.1 (accumulate 0 0 (b0 :: rest)).2.2) ∧
    tryProposeBatch [freshBlock] 1100 = .deferred ∧
    tryProposeBatch [freshBlock] 1300 = .propose [1] [freshBlock] [] 2 100000 := by
  have hmodts : (b0.blockTimestamp + batchTimeSec) % U64 = b0.blockTimestamp + batchTimeSec :=
    Nat.mod_eq_of_lt hts
  refine ⟨?_, ?_, by decide, by decide⟩
  · intro hcond
    simp only [tryProposeBatch]
    rw [if_pos]
    rw [hmodts]
    exact hcond
  · intro sb sbrest hacc hncond
    simp only [tryProposeBatch]
    rw [if_neg, hacc]
    intro hc
    apply hncond
    rw [← hmodts]
    exact hc

/-- Claim C5 counterexample (uint64 wrap-around): a block with gas 1 and
timestamp `2 ^ 64 - 200` satisfies the claim's deferral premises at time
1,700,000,000 (all blocks consumed, gas far under threshold, timestamp plus
300 is larger than now), yet the wrapped Go comparison fails and the code
proposes the batch instead of deferring. -/
theorem c5_overflow_counterexample :
    overflowTsBlock.blockTimestamp + batchTimeSec > 1700000000 ∧
    gasSum [overflowTsBlock] < batchGasThreshold ∧
    (accumulate 0 0 [overflowTsBlock]).1 = [overflowTsBlock] ∧
    tryProposeBatch [overflowTsBlock] 1700000000 =
      .propose [1] [overflowTsBlock] [] 1 1 := by decide

theorem c5_witness :
    tryProposeBatch [freshBlock] 1100 = .deferred ∧
    tryProposeBatch [freshBlock] 1300 = .propose [1] [freshBlock] [] 2 100000 := by
  have h := c5_idle_deferral freshBlock [] 1100 (by decide)
  exact ⟨h.1 (by decide), h.2.2.2⟩

/-- Claim C6: `createBatchForBlocks` is atomic over the store: either every
step succeeds, the call returns nil, and the batch row and all block
assignments are committed together; or some step (begin, either write, or
commit) fails, that step's error is returned to the caller, and the
committed state is exactly the one before the call (the deferred rollback
discarded the pending writes) — never a batch row without its assignments
or assignments without a batch row. -/
theorem c6_createBatchForBlocks_atomic (o : StoreOracle) (db : DBState)
    (blockIDs : List Nat) (blocks : List BlockInfo) (parentHash : List Nat)
    (txNum gasUsed : Nat) :
    (o.beginErr = none ∧ o.newBatchErr = none ∧ o.setErr = none ∧ o.commitErr = none ∧
      (createBatchForBlocks o db blockIDs blocks parentHash txNum gasUsed).1 = .ok () ∧
      (createBatchForBlocks o db blockIDs blocks parentHash txNum gasUsed).2 =
        ⟨db.batches ++ [⟨o.newID, (blocks.headD default).number,
          (blocks.getLastD default).number, parentHash, txNum, gasUsed⟩],
         db.assignments ++ blockIDs.map (fun n => (n, o.newID))⟩) ∨
    (∃ e, (createBatchForBlocks o db blockIDs blocks parentHash txNum gasUsed).1 = .error e ∧
      (createBatchForBlocks o db blockIDs blocks parentHash txNum gasUsed).2 = db ∧
      (o.beginErr = some e ∨ o.newBatchErr = some e ∨ o.setErr = some e ∨
        o.commitErr = some e)) := by
  obtain ⟨be, nbe, se, ce, id⟩ := o
  cases be with
  | some e => exact Or.inr ⟨e, rfl, rfl, Or.inl rfl⟩
  | none =>
    cases nbe with
    | some e => exact Or.inr ⟨e, rfl, rfl, Or.inr (Or.inl rfl)⟩
    | none =>
      cases se with
      | some e => exact Or.inr ⟨e, rfl, rfl, Or.inr (Or.inr (Or.inl rfl))⟩
      | none =>
        cases ce with
        | some e => exact Or.inr ⟨e, rfl, rfl, Or.inr (Or.inr (Or.inr rfl))⟩
        | none => exact Or.inl ⟨rfl, rfl, rfl, rfl, rfl, rfl⟩

/-- Claim C7: for a non-empty fetched list, `tryProposeBatch` takes the
process-aborting branch (the Go panic, carrying `blocks[0].GasUsed`) exactly
when the oldest block's gas alone exceeds the 3,000,000 threshold, which is
exactly when the greedy accumulation selects no block; the idle-deferral
check never fires in that situation. -/
theorem c7_fatal_on_oversized_block (b0 : BlockInfo) (rest : List BlockInfo)
    (now : Nat) (hb : b0.gasUsed < U64) :
    tryProposeBatch (b0 :: rest) now = .fatal b0.gasUsed ↔
      batchGasThreshold < b0.gasUsed := by
  have hmod : (0 + b0.gasUsed) % U64 = b0.gasUsed := by
    rw [Nat.zero_add, Nat.mod_eq_of_lt hb]
  constructor
  · intro h
    by_contra hng
    push_neg at hng
    have hacc := accumulate_cons_step 0 0 b0 rest (by rw [hmod]; omega)
    simp only [tryProposeBatch, hacc] at h
    split_ifs at h
  · intro hgt
    have hacc := accumulate_cons_stop 0 0 b0 rest (by rw [hmod]; omega)
    simp only [tryProposeBatch, hacc]
    rw [if_neg]
    simp

theorem c7_witness : tryProposeBatch [oversizedBlock] 0 = .fatal 4000000 :=
  (c7_fatal_on_oversized_block oversizedBlock [] 0 (by decide)).mpr (by decide)

/-- Claim C9: `BatchProof.SanityCheck` returns a descriptive error (and is a
total function — no panic) on a nil receiver, on an empty proof, and on a
proof whose byte length is not a multiple of 32; it returns nil for every
non-empty proof whose length is a multiple of 32. -/
theorem c9_sanityCheck (ap : BatchProof) :
    BatchProof.SanityCheck none = some .aggProofNil ∧
    (ap.proof.length = 0 → BatchProof.SanityCheck (some ap) = some .proofNotReady) ∧
    (ap.proof.length % 32 ≠ 0 →
      BatchProof.SanityCheck (some ap) = some (.wrongLength ap.proof.length)) ∧
    (ap.proof.length ≠ 0 → ap.proof.length % 32 = 0 →
      BatchProof.SanityCheck (some ap) = none) := by
  refine ⟨rfl, ?_, ?_, ?_⟩
  · intro h
    simp [BatchProof.SanityCheck, h]
  · intro h
    have h0 : ap.proof.length ≠ 0 := by
      intro h0
      rw [h0] at h
      omega
    simp [BatchProof.SanityCheck, h0, h]
  · intro h0 h32
    simp [BatchProof.SanityCheck, h0, h32]

theorem c9_witness :
    BatchProof.SanityCheck (some ⟨List.replicate 64 0, [], [], []⟩) = none ∧
    BatchProof.SanityCheck none = some .aggProofNil := by
  have h := c9_sanityCheck ⟨List.replicate 64 0, [], [], []⟩
  exact ⟨h.2.2.2 (by decide) (by decide), h.1⟩

/-- Claim C1: for any crypto model satisfying the ECDSA correctness facts at
the signed hash and key (signing succeeds with a non-empty byte signature,
recovery from the fresh signature yields the key's public key, and the
signature stripped of its recovery byte verifies against that compressed
key), after `Sign` succeeds on a fresh message, `Verify` returns
`(true, nil)` and `PublicKey` returns the hex encoding
(`common.Bytes2Hex`) of the compressed public key derived from the private
key. -/
theorem c1_sign_verify_publicKey (C : CryptoModel) (privToPub : Nat → Nat)
    (a a' : ProofMsg) (k : Nat) (h sig : Bytes)
    (hcache : a.publicKey = [])
    (hhash : C.hashPD a.detail = .ok h)
    (hsig : C.ecSign h k = .ok sig)
    (hsig256 : ∀ b ∈ sig, b < 256)
    (hsignonempty : sig ≠ [])
    (hrecover : C.sigToPub h sig = .ok (privToPub k))
    (hpk256 : ∀ b ∈ C.compressPubkey (privToPub k), b < 256)
    (hverify : C.verifySignature (C.compressPubkey (privToPub k)) h
      (sig.take (sig.length - 1)) = true)
    (hsigned : ProofMsg.Sign C a k = .ok a') :
    (ProofMsg.Verify C a').1 = .ok true ∧
    (ProofMsg.PublicKey C a').1 = .ok (bytes2Hex (C.compressPubkey (privToPub k))) := by
  simp only [ProofMsg.Sign, hhash, hsig] at hsigned
  have ha' : a' = { a with signature := hexutilEncode sig } := by
    injection hsigned with h'
    exact h'.symm
  subst ha'
  obtain ⟨s0, srest, hs⟩ := List.exists_cons_of_ne_nil hsignonempty
  subst hs
  have hdec : fromHex (hexutilEncode (s0 :: srest)) = s0 :: srest :=
    fromHex_hexutilEncode _ hsig256
  have hdec2 : fromHex (bytes2Hex (C.compressPubkey (privToPub k))) =
      C.compressPubkey (privToPub k) := fromHex_bytes2Hex _ hpk256
  simp only [List.length_cons, Nat.add_sub_cancel] at hverify
  constructor
  · simp only [ProofMsg.Verify, hhash, hdec, hcache, hrecover, hdec2, hverify,
      List.length_cons, Nat.add_sub_cancel, eq_self_iff_true, if_true]
  · simp only [ProofMsg.PublicKey, hcache, hhash, hdec, hrecover,
      eq_self_iff_true, if_true]

/-- Claim C3: `Verify` validates the signature only against the key
recovered from that same signature: for any crypto model that is
self-consistent in the ECDSA sense (a signature from which `SigToPub`
recovers a key — with canonical low s, which the hypothesis instantiates —
verifies against that recovered compressed key), any message whose cached
key is empty, whose detail hashes, and whose decoded signature recovers,
verifies to `(true, nil)`; consequently `(false, nil)` is reachable only
when the cache was pre-populated with a different key than the recovered
one. -/
theorem c3_self_recovery (C : CryptoModel) (a : ProofMsg) (h : Bytes) (pk : Nat)
    (hhash : C.hashPD a.detail = .ok h)
    (hrecover : C.sigToPub h (fromHex a.signature) = .ok pk)
    (hselfcons : C.verifySignature (C.compressPubkey pk) h
      ((fromHex a.signature).take ((fromHex a.signature).length - 1)) = true)
    (hpk256 : ∀ b ∈ C.compressPubkey pk, b < 256)
    (hsignonempty : fromHex a.signature ≠ []) :
    (a.publicKey = [] → (ProofMsg.Verify C a).1 = .ok true) ∧
    ((ProofMsg.Verify C a).1 = .ok false →
      a.publicKey ≠ [] ∧ a.publicKey ≠ bytes2Hex (C.compressPubkey pk)) := by
  have hdec2 : fromHex (bytes2Hex (C.compressPubkey pk)) = C.compressPubkey pk :=
    fromHex_bytes2Hex _ hpk256
  obtain ⟨s0, srest, hs⟩ := List.exists_cons_of_ne_nil hsignonempty
  rw [hs] at hselfcons hrecover
  simp only [List.length_cons, Nat.add_sub_cancel] at hselfcons
  have hpart1 : a.publicKey = [] → (ProofMsg.Verify C a).1 = .ok true := by
    intro hc
    simp only [ProofMsg.Verify, hhash, hc, hs, hrecover, hdec2, hselfcons,
      List.length_cons, Nat.add_sub_cancel, eq_self_iff_true, if_true]
  refine ⟨hpart1, ?_⟩
  intro hfalse
  by_cases hc : a.publicKey = []
  · rw [hpart1 hc] at hfalse
    simp at hfalse
  · refine ⟨hc, ?_⟩
    intro hceq
    simp only [ProofMsg.Verify, hhash, hs, if_neg hc, List.length_cons,
      Nat.add_sub_cancel] at hfalse
    rw [hceq, hdec2, hselfcons] at hfalse
    simp at hfalse

/-- Claim C10: when the public-key cache is already populated and the
detail hashes, a stored signature that `common.FromHex` decodes to an empty
byte slice (the empty string, or non-hex input) drives `Verify` into
`sig[:len(sig)-1]` on a zero-length slice: the Go runtime aborts (slice
bounds out of range) instead of returning an error or `false`. -/
theorem c10_empty_sig_crash (C : CryptoModel) (a : ProofMsg) (h : Bytes)
    (hcache : a.publicKey ≠ [])
    (hhash : C.hashPD a.detail = .ok h)
    (hempty : fromHex a.signature = []) :
    (ProofMsg.Verify C a).1 = .crash := by
  simp only [ProofMsg.Verify, hhash, hempty, if_neg hcache]

set_option maxRecDepth 40000 in
/-- Claim C2 (code defect, exhibited over the toy crypto model): flipping a
single byte of a correctly produced signature does not make `Verify` return
`(false, nil)` — on a fresh message the key is recovered from the flipped
signature itself, so `Verify` returns `(true, nil)`. -/
theorem c2_flipped_byte_still_verifies :
    ProofMsg.Sign toyCrypto sampleMsg 5 = .ok signedSample ∧
    flippedSig = (fromHex signedSample.signature).set 1 1 ∧
    flippedSig ≠ fromHex signedSample.signature ∧
    (ProofMsg.Verify toyCrypto flippedMsg).1 = .ok true :=
  ⟨rfl, by decide, by decide, by decide⟩

/-- Claim C8: `ProofDetail.Hash` is deterministic (a function of the
logical content), and on well-formed details — given that Keccak-256 does
not collide on the two canonical serializations — hashes agree exactly when
the details agree; in particular mutating any field, nested ones included,
changes the hash. -/
theorem c8_hash_deterministic_and_field_sensitive (keccak : Bytes → Bytes)
    (d d' : ProofDetail) (hwf : d.WF = true) (hwf' : d'.WF = true)
    (hnc : keccak d.rlpEncode = keccak d'.rlpEncode → d.rlpEncode = d'.rlpEncode) :
    ProofDetail.Hash keccak d = ProofDetail.Hash keccak d' ↔ d = d' := by
  constructor
  · intro h
    exact ProofDetail.rlpEncode_inj d d' hwf hwf' (hnc h)
  · intro h
    rw [h]

set_option maxRecDepth 40000 in
theorem c8_witness :
    (ProofDetail.Hash (fun x => x) richDetail =
      ProofDetail.Hash (fun x => x) richDetailMut ↔ richDetail = richDetailMut) :=
  c8_hash_deterministic_and_field_sensitive (fun x => x) richDetail richDetailMut
    (by decide) (by decide) (fun hh => hh)

set_option maxRecDepth 40000 in
theorem c1_witness :
    (ProofMsg.Verify toyCrypto signedSample).1 = .ok true ∧
    (ProofMsg.PublicKey toyCrypto signedSample).1 = .ok [48, 53] :=
  c1_sign_verify_publicKey toyCrypto (fun k => k % 256) sampleMsg signedSample 5
    [1, 2, 3] (toySig 5) rfl rfl rfl (by decide) (by decide) rfl (by decide)
    (by decide) rfl

set_option maxRecDepth 40000 in
theorem c3_witness : (ProofMsg.Verify toyCrypto selfRecoveryMsg).1 = .ok true :=
  (c3_self_recovery toyCrypto selfRecoveryMsg [1, 2, 3] 7 rfl rfl
    (by decide) (by decide) (by decide)).1 rfl

set_option maxRecDepth 40000 in
theorem c10_witness : (ProofMsg.Verify toyCrypto cachedBadSigMsg).1 = .crash :=
  c10_empty_sig_crash toyCrypto cachedBadSigMsg [1, 2, 3] (by decide) rfl (by decide)

end Scroll
